import Mathlib

/-!
Verification of the KenKen CSP model compilers (`kenken_csp.py`) and the
search-guidance heuristics (`heuristics.py`) of the
Constraints-Satisfaction-Problem-KenKen repository.

The Python sources are shallowly embedded below.  Machine integers are
modelled as `Int` (Python ints are unbounded), Python `float` division in
the division-cage check is modelled as exact rational division (`Rat`),
tuples as `List Int`, and the `cspbase` collaborator (which the repository
imports but whose file is not part of the analysed sources) is modelled
from the external-interface contract in the specification.
-/

/-! ## Generic list infrastructure -/

/-- Cartesian product of a list of lists: the embedding of Python's
`itertools.product(*doms)`.  `listProd [d1, …, dk]` enumerates all
`[x1, …, xk]` with `xi ∈ di`. -/
def listProd {α : Type} : List (List α) → List (List α)
  | [] => [[]]
  | d :: ds => d.flatMap (fun x => (listProd ds).map (fun t => x :: t))

theorem mem_listProd {α : Type} {ds : List (List α)} {t : List α} :
    t ∈ listProd ds ↔ List.Forall₂ (fun x d => x ∈ d) t ds := by
  induction ds generalizing t with
  | nil =>
    simp [listProd, List.forall₂_nil_right_iff]
  | cons d ds ih =>
    simp only [listProd, List.mem_flatMap, List.mem_map]
    constructor
    · rintro ⟨x, hx, t', ht', rfl⟩
      exact List.Forall₂.cons hx (ih.mp ht')
    · intro h
      cases h with
      | cons hx ht' => exact ⟨_, hx, _, ih.mpr ht', rfl⟩

/-- All ordered pairs `(l[i], l[j])` with `i < j`: the embedding of Python's
`itertools.combinations(l, r=2)`. -/
def pairsOf {α : Type} : List α → List (α × α)
  | [] => []
  | x :: xs => xs.map (fun y => (x, y)) ++ pairsOf xs

theorem pairsOf_forall_iff_pairwise {α : Type} (R : α → α → Prop) (l : List α) :
    (∀ p ∈ pairsOf l, R p.1 p.2) ↔ l.Pairwise R := by
  induction l with
  | nil => simp [pairsOf]
  | cons x xs ih =>
    simp only [pairsOf, List.mem_append, List.mem_map, List.pairwise_cons]
    constructor
    · intro h
      refine ⟨fun y hy => h (x, y) (Or.inl ⟨y, hy, rfl⟩), ih.mp ?_⟩
      exact fun p hp => h p (Or.inr hp)
    · rintro ⟨hx, hxs⟩ p hp
      rcases hp with ⟨y, hy, rfl⟩ | hp
      · exact hx y hy
      · exact (ih.mpr hxs) p hp

theorem mem_of_mem_pairsOf {α : Type} {l : List α} {p : α × α} (h : p ∈ pairsOf l) :
    p.1 ∈ l ∧ p.2 ∈ l := by
  induction l with
  | nil => simp [pairsOf] at h
  | cons x xs ih =>
    simp only [pairsOf, List.mem_append, List.mem_map] at h
    rcases h with ⟨y, hy, rfl⟩ | h
    · exact ⟨List.mem_cons_self _ _, List.mem_cons_of_mem _ hy⟩
    · exact ⟨List.mem_cons_of_mem _ (ih h).1, List.mem_cons_of_mem _ (ih h).2⟩

/-- Insert an element into a (key-sorted) list, after every element of
strictly smaller key and before every element of greater-or-equal key.
Inserting the originally-earlier element with `insSorted` in front of
equal-key elements is what makes `stableSortByKey` a stable sort. -/
def insSorted {α : Type} (key : α → Nat) (x : α) : List α → List α
  | [] => [x]
  | y :: ys => if key y < key x then y :: insSorted key x ys else x :: y :: ys

/-- Stable insertion sort by a natural-number key, ascending: the embedding of
Python's stable `sorted(l, key=key)`. -/
def stableSortByKey {α : Type} (key : α → Nat) : List α → List α
  | [] => []
  | x :: xs => insSorted key x (stableSortByKey key xs)

theorem insSorted_perm {α : Type} (key : α → Nat) (x : α) (l : List α) :
    List.Perm (insSorted key x l) (x :: l) := by
  induction l with
  | nil => simp [insSorted]
  | cons y ys ih =>
    by_cases h : key y < key x
    · simp only [insSorted, if_pos h]
      exact (ih.cons y).trans (List.Perm.swap x y ys)
    · simp [insSorted, if_neg h]

theorem stableSortByKey_perm {α : Type} (key : α → Nat) (l : List α) :
    List.Perm (stableSortByKey key l) l := by
  induction l with
  | nil => simp [stableSortByKey]
  | cons x xs ih =>
    exact (insSorted_perm key x _).trans (ih.cons x)

theorem insSorted_sorted {α : Type} (key : α → Nat) (x : α) (l : List α)
    (h : l.Pairwise (fun a b => key a ≤ key b)) :
    (insSorted key x l).Pairwise (fun a b => key a ≤ key b) := by
  induction l with
  | nil => simp [insSorted]
  | cons y ys ih =>
    rcases List.pairwise_cons.mp h with ⟨hy, hys⟩
    by_cases hk : key y < key x
    · simp only [insSorted, if_pos hk]
      refine List.pairwise_cons.mpr ⟨?_, ih hys⟩
      intro z hz
      rcases List.mem_cons.mp ((insSorted_perm key x ys).mem_iff.mp hz) with hz | hz
      · subst hz; exact Nat.le_of_lt hk
      · exact hy z hz
    · simp only [insSorted, if_neg hk]
      refine List.pairwise_cons.mpr ⟨?_, h⟩
      intro z hz
      rcases List.mem_cons.mp hz with hz | hz
      · subst hz; exact Nat.le_of_not_lt hk
      · exact le_trans (Nat.le_of_not_lt hk) (hy z hz)

theorem stableSortByKey_sorted {α : Type} (key : α → Nat) (l : List α) :
    (stableSortByKey key l).Pairwise (fun a b => key a ≤ key b) := by
  induction l with
  | nil => simp [stableSortByKey]
  | cons x xs ih => exact insSorted_sorted key x _ ih

theorem insSorted_filter_key {α : Type} (key : α → Nat) (x : α) (l : List α)
    (k : Nat) [DecidablePred (fun a => key a = k)] :
    (insSorted key x l).filter (fun a => decide (key a = k)) =
      if key x = k then x :: l.filter (fun a => decide (key a = k))
      else l.filter (fun a => decide (key a = k)) := by
  induction l with
  | nil =>
    by_cases hx : key x = k <;> simp [insSorted, hx]
  | cons y ys ih =>
    by_cases hk : key y < key x
    · have hyx : ¬ (key y = k ∧ key x = k) := by
        rintro ⟨h1, h2⟩; omega
      simp only [insSorted, if_pos hk, List.filter_cons]
      by_cases hy : key y = k
      · have hx : ¬ key x = k := fun hx => hyx ⟨hy, hx⟩
        simp [hy, hx] at ih ⊢
        exact ih
      · simp only [hy, decide_eq_true_eq, if_neg hy]
        simp only [decide_eq_false hy, Bool.false_eq_true, if_false] at ih ⊢
        rw [ih]
    · simp only [insSorted, if_neg hk, List.filter_cons]
      by_cases hx : key x = k <;> simp [hx]

/-- Stability of `stableSortByKey`: the subsequence of elements with any
fixed key value is preserved exactly. -/
theorem stableSortByKey_filter_key {α : Type} (key : α → Nat) (l : List α) (k : Nat) :
    (stableSortByKey key l).filter (fun a => decide (key a = k)) =
      l.filter (fun a => decide (key a = k)) := by
  induction l with
  | nil => simp [stableSortByKey]
  | cons x xs ih =>
    rw [stableSortByKey, insSorted_filter_key key x _ k, List.filter_cons]
    by_cases hx : key x = k <;> simp [hx, ih]

theorem insSorted_congr_key {α : Type} (k1 k2 : α → Nat) (x : α) (l : List α)
    (h : ∀ a ∈ l, (k1 a < k1 x ↔ k2 a < k2 x)) :
    insSorted k1 x l = insSorted k2 x l := by
  induction l with
  | nil => rfl
  | cons y ys ih =>
    have hy := h y (List.mem_cons_self _ _)
    by_cases hk : k1 y < k1 x
    · rw [insSorted, if_pos hk, insSorted, if_pos (hy.mp hk),
        ih (fun a ha => h a (List.mem_cons_of_mem _ ha))]
    · rw [insSorted, if_neg hk, insSorted, if_neg (fun hc => hk (hy.mpr hc))]

/-- Sorting by two keys that induce the same pairwise comparisons on the
list's elements produces the same result. -/
theorem stableSortByKey_congr_key {α : Type} (k1 k2 : α → Nat) (l : List α)
    (h : ∀ a ∈ l, ∀ b ∈ l, (k1 a < k1 b ↔ k2 a < k2 b)) :
    stableSortByKey k1 l = stableSortByKey k2 l := by
  induction l with
  | nil => rfl
  | cons x xs ih =>
    have hrec : stableSortByKey k1 xs = stableSortByKey k2 xs :=
      ih (fun a ha b hb =>
        h a (List.mem_cons_of_mem _ ha) b (List.mem_cons_of_mem _ hb))
    rw [stableSortByKey, stableSortByKey, hrec]
    refine insSorted_congr_key k1 k2 x _ (fun a ha => ?_)
    have ha' : a ∈ xs := ((stableSortByKey_perm k2 xs).mem_iff).mp ha
    exact h a (List.mem_cons_of_mem _ ha') x (List.mem_cons_self _ _)

theorem insSorted_map {α β : Type} (k1 : α → Nat) (k2 : β → Nat) (f : α → β)
    (hf : ∀ a, k2 (f a) = k1 a) (x : α) (l : List α) :
    insSorted k2 (f x) (l.map f) = (insSorted k1 x l).map f := by
  induction l with
  | nil => rfl
  | cons y ys ih =>
    by_cases hk : k1 y < k1 x
    · rw [List.map_cons, insSorted, hf, hf, if_pos hk, insSorted, if_pos hk,
        List.map_cons, ih]
    · rw [List.map_cons, insSorted, hf, hf, if_neg hk, insSorted, if_neg hk]
      rfl

theorem stableSortByKey_map {α β : Type} (k1 : α → Nat) (k2 : β → Nat) (f : α → β)
    (hf : ∀ a, k2 (f a) = k1 a) (l : List α) :
    stableSortByKey k2 (l.map f) = (stableSortByKey k1 l).map f := by
  induction l with
  | nil => rfl
  | cons x xs ih =>
    rw [List.map_cons, stableSortByKey, stableSortByKey, ih,
      insSorted_map k1 k2 f hf]

/-- Splitting a count: if falsity of `p` propagates to falsity of `q` on all
elements, the elements failing `q` are those failing `p` plus those
satisfying `p` but failing `q`. -/
theorem length_filter_split {α : Type} (p q : α → Bool) (l : List α)
    (h : ∀ x ∈ l, p x = false → q x = false) :
    (l.filter (fun x => ! q x)).length =
      (l.filter (fun x => ! p x)).length +
        (l.filter (fun x => p x && ! q x)).length := by
  induction l with
  | nil => simp
  | cons x xs ih =>
    have hx := h x (List.mem_cons_self _ _)
    have ihx := ih (fun y hy => h y (List.mem_cons_of_mem _ hy))
    by_cases hp : p x = true
    · by_cases hq : q x = true
      · simp [List.filter_cons, hp, hq, ihx]
      · simp only [Bool.not_eq_true] at hq
        simp [List.filter_cons, hp, hq, ihx]
        omega
    · simp only [Bool.not_eq_true] at hp
      have hq := hx hp
      simp [List.filter_cons, hp, hq, ihx]
      omega

theorem sum_map_add {α : Type} (f g : α → Nat) (l : List α) :
    (l.map (fun x => f x + g x)).sum = (l.map f).sum + (l.map g).sum := by
  induction l with
  | nil => simp
  | cons x xs ih => simp [ih]; omega

/-- The Python test `len(t) == len(set(t))` holds exactly when the list has
no duplicate entries. -/
theorem dedup_length_eq_iff_nodup {α : Type} [DecidableEq α] (t : List α) :
    t.dedup.length = t.length ↔ t.Nodup := by
  constructor
  · intro h
    have hs : t.dedup.Sublist t := t.dedup_sublist
    have : t.dedup = t := hs.eq_of_length h
    rw [← this]
    exact t.nodup_dedup
  · intro h
    rw [List.dedup_eq_self.mpr h]

/-! ## Embedding of kenken_csp.py -/

/-- Modelled from the spec: `cspbase.Variable` (the `cspbase` collaborator is
not among the analysed sources); §6 gives a `Variable` an identity (name)
and a full domain `domain()`. -/
structure Variable where
  name : String
  domain : List Int
deriving DecidableEq

/-- Modelled from the spec: `cspbase.Constraint` as populated by the
compilers; §6 gives it a name, an ordered scope of `Variable`s and a
satisfying-tuple set filled by `add_satisfying_tuples`.  `cells` records the
0-indexed board coordinates the compiler resolved the scope from (the code
keeps this correspondence implicitly through the object references
`vars[i][j]`). -/
structure KConstraint where
  name : String
  cells : List (Nat × Nat)
  scope : List Variable
  satTuples : List (List Int)
deriving DecidableEq

/-- The data returned by each model builder: the CSP object (its name plus
the constraints added to it) together with the 2-D board variable array. -/
structure GridModel where
  cspName : String
  vars : List (List Variable)
  cons : List KConstraint
deriving DecidableEq

/-- `size = kenken_grid[0][0]`, as the iteration count fed to `range(size)`. -/
def gridSize (kenken_grid : List (List Int)) : Nat :=
  kenken_grid.headI.headI.toNat

/-- `dom = [i+1 for i in range(size)]`. -/
def dom (size : Nat) : List Int :=
  (List.range size).map (fun i => Int.ofNat i + 1)

/-- The variable grid: `Variable('V{}{}'.format(vRow, vCol), dom)` for
`vRow` then `vCol` ranging over `dom`. -/
def mkVars (size : Nat) : List (List Variable) :=
  (dom size).map (fun vRow =>
    (dom size).map (fun vCol =>
      Variable.mk ("V" ++ toString vRow ++ toString vCol) (dom size)))

/-- `vars[i][j]` (all compiled lookups are in range). -/
def varAt (vars : List (List Variable)) (p : Nat × Nat) : Variable :=
  (vars.getD p.1 []).getD p.2 (Variable.mk "" [])

/-- `itertools.product([index], range(size))`: the cell coordinates of row
`index`. -/
def rowItems (index size : Nat) : List (Nat × Nat) :=
  (List.range size).map (fun j => (index, j))

/-- `itertools.product(range(size), [index])`: the cell coordinates of
column `index`. -/
def colItems (index size : Nat) : List (Nat × Nat) :=
  (List.range size).map (fun i => (i, index))

/-- Modelled from the spec: Python's `str(v)` on a `cspbase.Variable` (not
among the analysed sources) prints a form ending in the variable's name, so
`str(v)[-3:]` is the last three characters of the name. -/
def strOfVar (v : Variable) : String := v.name

/-- `s[-3:]`: the last three characters of a string. -/
def lastThree (s : String) : String :=
  String.mk (s.data.drop (s.data.length - 3))

/-- `helper_binary_ne_constraint(index, size, vars, isRowConstraints)`: one
binary not-equal constraint per unordered pair of cells of the line, whose
satisfying tuples are the pairs from the product of the two full domains
with different components. -/
def helper_binary_ne_constraint (index size : Nat) (vars : List (List Variable))
    (isRowConstraints : Bool) : List KConstraint :=
  let items := if isRowConstraints then rowItems index size else colItems index size
  (pairsOf items).map (fun comb =>
    let firstV := comb.1
    let secondV := comb.2
    let v1 := varAt vars firstV
    let v2 := varAt vars secondV
    { name := "C(V" ++ toString (firstV.1 + 1) ++ toString (firstV.2 + 1) ++
        ",V" ++ toString (secondV.1 + 1) ++ toString (secondV.2 + 1) ++ ")",
      cells := [firstV, secondV],
      scope := [v1, v2],
      satTuples := (listProd [v1.domain, v2.domain]).filter
        (fun t => decide (t.getD 0 0 ≠ t.getD 1 0)) })

/-- `helper_nary_ad_constraint(index, size, vars, isRowConstraints)`: the
single all-different constraint of a line; a tuple from the product of the
scope domains satisfies it when `len(t) == len(set(t))`. -/
def helper_nary_ad_constraint (index size : Nat) (vars : List (List Variable))
    (isRowConstraints : Bool) : KConstraint :=
  let items := if isRowConstraints then rowItems index size else colItems index size
  let curVars := items.map (fun v => varAt vars v)
  let conName := String.intercalate "," (curVars.map (fun v => lastThree (strOfVar v)))
  { name := "C(" ++ conName ++ ")",
    cells := items,
    scope := curVars,
    satTuples := (listProd (curVars.map Variable.domain)).filter
      (fun t => decide (t.length = t.dedup.length)) }

/-- `binary_ne_grid(kenken_grid)`. -/
def binary_ne_grid (kenken_grid : List (List Int)) : GridModel :=
  let size := gridSize kenken_grid
  let vars := mkVars size
  let cons := (List.range size).flatMap (fun index =>
    helper_binary_ne_constraint index size vars true ++
      helper_binary_ne_constraint index size vars false)
  { cspName := toString size ++ "-Kenken", vars := vars, cons := cons }

/-- `nary_ad_grid(kenken_grid)`. -/
def nary_ad_grid (kenken_grid : List (List Int)) : GridModel :=
  let size := gridSize kenken_grid
  let vars := mkVars size
  let cons := (List.range size).flatMap (fun index =>
    [helper_nary_ad_constraint index size vars true,
      helper_nary_ad_constraint index size vars false])
  { cspName := toString size ++ "-Kenken", vars := vars, cons := cons }

/-- `res = r[0]` then `res -= i` over `r[1:]`. -/
def subChain : List Int → Int
  | [] => 0
  | x :: xs => xs.foldl (fun res i => res - i) x

/-- `res = r[0]` then `res /= i` over `r[1:]`; Python's non-truncating `/`
is modelled as exact rational division. -/
def divChain : List Int → Rat
  | [] => 0
  | x :: xs => xs.foldl (fun res i => res / (i : Rat)) (x : Rat)

/-- The satisfying-tuple list built by the cage branch of
`kenken_csp_model`: for each tuple `t` of the product of the cage domains
the operator-specific test appends `t` — once per matching ordering for
the non-commutative operators 1 (subtraction) and 2 (division), exactly as
the nested Python loops do. -/
def cageSatTuples (op val : Int) (varsDom : List (List Int)) : List (List Int) :=
  (listProd varsDom).flatMap (fun t =>
    if op = 0 then (if t.sum = val then [t] else [])
    else if op = 1 then
      t.permutations'.flatMap (fun r => if subChain r = val then [t] else [])
    else if op = 2 then
      t.permutations'.flatMap (fun r => if divChain r = (val : Rat) then [t] else [])
    else if op = 3 then (if t.prod = val then [t] else [])
    else [])

/-- One iteration of the cage loop of `kenken_csp_model` over a row `cage`
of the puzzle description, transforming the `(vars, cons)` state: a
singleton row is the board-size specification and is skipped, a length-2
row replaces the addressed variable by a fresh one with the singleton
domain, and a longer row compiles one cage constraint from the current
variable grid.  Cell decoding follows the code: `cell // 10 - 1` and
`cell % 10 - 1` (floor division and Python modulo). -/
def cageStep (vc : List (List Variable) × List KConstraint) (cage : List Int) :
    List (List Variable) × List KConstraint :=
  if cage.length = 1 then vc
  else if cage.length = 2 then
    let val := cage.getD 1 0
    let cell_i := ((cage.getD 0 0).fdiv 10 - 1).toNat
    let cell_j := ((cage.getD 0 0).emod 10 - 1).toNat
    (vc.1.set cell_i ((vc.1.getD cell_i []).set cell_j
      (Variable.mk ("V" ++ toString (cell_i + 1) ++ toString (cell_j + 1)) [val])),
      vc.2)
  else if 2 < cage.length then
    let val := cage.getD (cage.length - 2) 0
    let op := cage.getD (cage.length - 1) 0
    let cells := (cage.take (cage.length - 2)).map (fun v =>
      ((v.fdiv 10 - 1).toNat, (v.emod 10 - 1).toNat))
    let cageVars := cells.map (fun p => varAt vc.1 p)
    let conName := String.intercalate "," (cageVars.map (fun v => lastThree (strOfVar v)))
    let con : KConstraint :=
      { name := "Cage(" ++ conName ++ ")",
        cells := cells,
        scope := cageVars,
        satTuples := cageSatTuples op val (cageVars.map Variable.domain) }
    (vc.1, vc.2 ++ [con])
  else vc

/-- `kenken_csp_model(kenken_grid)`: the cage loop over the description rows
in order, then the n-ary all-different grid constraints built from the
resulting variable grid. -/
def kenken_csp_model (kenken_grid : List (List Int)) : GridModel :=
  let size := gridSize kenken_grid
  let vars0 := mkVars size
  let vc := kenken_grid.foldl cageStep (vars0, [])
  let gridCons := (List.range size).flatMap (fun index =>
    [helper_nary_ad_constraint index size vc.1 true,
      helper_nary_ad_constraint index size vc.1 false])
  { cspName := toString size ++ "-Kenken", vars := vc.1, cons := vc.2 ++ gridCons }

/-- A full-grid assignment `f` (value of the cell at 0-indexed row `i`,
column `j`) satisfies a compiled constraint when the tuple of its values at
the constraint's cells belongs to the satisfying-tuple set. -/
def satisfiesCon (f : Nat → Nat → Int) (c : KConstraint) : Prop :=
  (c.cells.map (fun p => f p.1 p.2)) ∈ c.satTuples

/-- `f` satisfies every constraint of the model. -/
def satisfiesModel (f : Nat → Nat → Int) (m : GridModel) : Prop :=
  ∀ c ∈ m.cons, satisfiesCon f c

/-! ## Cage satisfying-tuple characterization (claims C3, C4) -/

theorem cageSatTuples_op1 (val : Int) (varsDom : List (List Int)) :
    cageSatTuples 1 val varsDom =
      (listProd varsDom).flatMap (fun t =>
        t.permutations'.flatMap (fun r => if subChain r = val then [t] else [])) := by
  unfold cageSatTuples
  norm_num

theorem cageSatTuples_op2 (val : Int) (varsDom : List (List Int)) :
    cageSatTuples 2 val varsDom =
      (listProd varsDom).flatMap (fun t =>
        t.permutations'.flatMap (fun r => if divChain r = (val : Rat) then [t] else [])) := by
  unfold cageSatTuples
  norm_num

theorem mem_permChain_flatMap {t x : List Int} {P : List Int → Prop}
    [DecidablePred P] :
    (x ∈ t.permutations'.flatMap (fun r => if P r then [t] else [])) ↔
      (x = t ∧ ∃ r, List.Perm r t ∧ P r) := by
  simp only [List.mem_flatMap, List.mem_permutations']
  constructor
  · rintro ⟨r, hr, hx⟩
    by_cases hp : P r
    · rw [if_pos hp] at hx
      rcases List.mem_singleton.mp hx with rfl
      exact ⟨rfl, r, hr, hp⟩
    · rw [if_neg hp] at hx
      simp at hx
  · rintro ⟨rfl, r, hr, hp⟩
    exact ⟨r, hr, by rw [if_pos hp]; exact List.mem_singleton.mpr rfl⟩

/-- C4: a tuple over the cage domains is in the subtraction-cage (operator
tag 1) satisfying set iff some ordering of its values gives a left-to-right
difference chain equal to the target; the 2-cell cage over values 7 and 3
accepts both orders at target 4 and accepts nothing at target 10. -/
theorem subtraction_cage_sound :
    (∀ (val : Int) (varsDom : List (List Int)) (t : List Int),
      t ∈ cageSatTuples 1 val varsDom ↔
        t ∈ listProd varsDom ∧ ∃ r, List.Perm r t ∧ subChain r = val) ∧
    [7, 3] ∈ cageSatTuples 1 4 [[7, 3], [7, 3]] ∧
    [3, 7] ∈ cageSatTuples 1 4 [[7, 3], [7, 3]] ∧
    cageSatTuples 1 10 [[7, 3], [7, 3]] = [] := by
  refine ⟨fun val varsDom t => ?_, by decide, by decide, by decide⟩
  rw [cageSatTuples_op1, List.mem_flatMap]
  constructor
  · rintro ⟨t', ht', hmem⟩
    rcases mem_permChain_flatMap.mp hmem with ⟨rfl, hr⟩
    exact ⟨ht', hr⟩
  · rintro ⟨ht, hr⟩
    exact ⟨t, ht, mem_permChain_flatMap.mpr ⟨rfl, hr⟩⟩

/-- C3: a tuple over the cage domains is in the division-cage (operator tag
2) satisfying set iff some ordering of its values gives a left-to-right
division chain equal to the target, division taken exactly (the embedding
of Python's non-truncating `/`). -/
theorem division_cage_sound :
    ∀ (val : Int) (varsDom : List (List Int)) (t : List Int),
      t ∈ cageSatTuples 2 val varsDom ↔
        t ∈ listProd varsDom ∧ ∃ r, List.Perm r t ∧ divChain r = (val : Rat) := by
  intro val varsDom t
  rw [cageSatTuples_op2, List.mem_flatMap]
  constructor
  · rintro ⟨t', ht', hmem⟩
    rcases mem_permChain_flatMap.mp hmem with ⟨rfl, hr⟩
    exact ⟨ht', hr⟩
  · rintro ⟨ht, hr⟩
    exact ⟨t, ht, mem_permChain_flatMap.mpr ⟨rfl, hr⟩⟩

/-! ## Grid compilers read only the grid size (claim C10) -/

/-- C10: the grid-only compilers extract `kenken_grid[0][0]` and never look
at any cage row, so two descriptions with the same leading grid size
compile to structurally identical models (same CSP name, same variable
array with the same names and domains, same constraints with the same
scopes and satisfying-tuple sets). -/
theorem grid_models_ignore_cages (g1 g2 : List (List Int))
    (h : g1.headI.headI = g2.headI.headI) :
    binary_ne_grid g1 = binary_ne_grid g2 ∧ nary_ad_grid g1 = nary_ad_grid g2 := by
  constructor
  · unfold binary_ne_grid gridSize
    rw [h]
  · unfold nary_ad_grid gridSize
    rw [h]

theorem grid_models_ignore_cages_witness :
    binary_ne_grid [[2]] = binary_ne_grid [[2], [11, 1], [12, 21, 3, 0]] ∧
      nary_ad_grid [[2]] = nary_ad_grid [[2], [11, 1], [12, 21, 3, 0]] :=
  grid_models_ignore_cages [[2]] [[2], [11, 1], [12, 21, 3, 0]] rfl

/-! ## Forced-value override order (claim C2) -/

theorem getD_set_self {α : Type} (l : List α) (i : Nat) (x d : α) (h : i < l.length) :
    (l.set i x).getD i d = x := by
  induction l generalizing i with
  | nil => simp at h
  | cons a as ih =>
    cases i with
    | zero => rfl
    | succ j => exact ih j (Nat.lt_of_succ_lt_succ h)

/-- The cage loop leaves the variable grid unchanged on every row that is
not a forced-value (length-2) row. -/
theorem cageStep_vars_of_ne_two (vc : List (List Variable) × List KConstraint)
    (cage : List Int) (h : cage.length ≠ 2) : (cageStep vc cage).1 = vc.1 := by
  unfold cageStep
  by_cases h1 : cage.length = 1
  · rw [if_pos h1]
  · rw [if_neg h1, if_neg h]
    by_cases h2 : 2 < cage.length
    · rw [if_pos h2]
    · rw [if_neg h2]

theorem foldl_cageStep_vars_const (b : List (List Int))
    (hb : ∀ r ∈ b, r.length ≠ 2) :
    ∀ vc : List (List Variable) × List KConstraint,
      (b.foldl cageStep vc).1 = vc.1 := by
  induction b with
  | nil => intro vc; rfl
  | cons r rest ih =>
    intro vc
    rw [List.foldl_cons,
      ih (fun x hx => hb x (List.mem_cons_of_mem _ hx)) (cageStep vc r),
      cageStep_vars_of_ne_two vc r (hb r (List.mem_cons_self _ _))]

/-- A cage row shorter than 3 entries adds no constraint. -/
theorem cageStep_cons_of_short (vc : List (List Variable) × List KConstraint)
    (cage : List Int) (h : ¬ 2 < cage.length) : (cageStep vc cage).2 = vc.2 := by
  unfold cageStep
  by_cases h1 : cage.length = 1
  · rw [if_pos h1]
  · rw [if_neg h1]
    by_cases h2 : cage.length = 2
    · rw [if_pos h2]
    · rw [if_neg h2, if_neg h]

theorem foldl_cageStep_cons_of_short (a : List (List Int))
    (ha : ∀ r ∈ a, ¬ 2 < r.length) :
    ∀ vc : List (List Variable) × List KConstraint,
      (a.foldl cageStep vc).2 = vc.2 := by
  induction a with
  | nil => intro vc; rfl
  | cons r rest ih =>
    intro vc
    rw [List.foldl_cons,
      ih (fun x hx => ha x (List.mem_cons_of_mem _ hx)) (cageStep vc r),
      cageStep_cons_of_short vc r (ha r (List.mem_cons_self _ _))]

/-- Every tuple the cage builder emits is drawn from the product of the
domains handed to it. -/
theorem mem_listProd_of_mem_cageSatTuples {op val : Int} {varsDom : List (List Int)}
    {t : List Int} (h : t ∈ cageSatTuples op val varsDom) : t ∈ listProd varsDom := by
  unfold cageSatTuples at h
  rcases List.mem_flatMap.mp h with ⟨t', ht', hmem⟩
  split_ifs at hmem with h0 h1 h2 h3
  all_goals first
    | (rcases List.mem_singleton.mp hmem with rfl; exact ht')
    | (rcases List.mem_flatMap.mp hmem with ⟨r, hr, hif⟩
       rcases List.mem_ite_nil_right.mp hif with ⟨_, hone⟩
       rcases List.mem_singleton.mp hone with rfl
       exact ht')
    | simp at hmem

theorem cageStep_cons_shape (vc : List (List Variable) × List KConstraint)
    (r : List Int) :
    (cageStep vc r).2 = vc.2 ∨
      ∃ con : KConstraint, (cageStep vc r).2 = vc.2 ++ [con] ∧
        con.scope = con.cells.map (fun p => varAt vc.1 p) ∧
        ∀ t ∈ con.satTuples, t ∈ listProd (con.scope.map Variable.domain) := by
  unfold cageStep
  by_cases h1 : r.length = 1
  · rw [if_pos h1]; exact Or.inl rfl
  by_cases h2 : r.length = 2
  · rw [if_neg h1, if_pos h2]; exact Or.inl rfl
  by_cases h3 : 2 < r.length
  · rw [if_neg h1, if_neg h2, if_pos h3]
    exact Or.inr ⟨_, rfl, rfl, fun t ht => mem_listProd_of_mem_cageSatTuples ht⟩
  · rw [if_neg h1, if_neg h2, if_neg h3]; exact Or.inl rfl

/-- Folding description rows that contain no forced-value row adds only
constraints resolved from the (unchanged) incoming variable grid, with
satisfying tuples drawn from the scope domains. -/
theorem foldl_cageStep_cons_inv (b : List (List Int))
    (hb : ∀ r ∈ b, r.length ≠ 2) :
    ∀ vc : List (List Variable) × List KConstraint,
      ∀ c ∈ (b.foldl cageStep vc).2,
        c ∈ vc.2 ∨
          (c.scope = c.cells.map (fun p => varAt vc.1 p) ∧
            ∀ t ∈ c.satTuples, t ∈ listProd (c.scope.map Variable.domain)) := by
  induction b with
  | nil => intro vc c hc; exact Or.inl hc
  | cons r rest ih =>
    intro vc c hc
    rw [List.foldl_cons] at hc
    have hr2 : r.length ≠ 2 := hb r (List.mem_cons_self _ _)
    have hvars : (cageStep vc r).1 = vc.1 := cageStep_vars_of_ne_two vc r hr2
    rcases ih (fun x hx => hb x (List.mem_cons_of_mem _ hx)) (cageStep vc r) c hc
      with h | h
    · rcases cageStep_cons_shape vc r with hs | ⟨con, hs, hscope, hsat⟩
      · rw [hs] at h; exact Or.inl h
      · rw [hs] at h
        rcases List.mem_append.mp h with h | h
        · exact Or.inl h
        · rcases List.mem_singleton.mp h with rfl
          exact Or.inr ⟨hscope, hsat⟩
    · rw [hvars] at h
      exact Or.inr h

theorem helper_nary_shape (index size : Nat) (vars : List (List Variable))
    (isRow : Bool) :
    (helper_nary_ad_constraint index size vars isRow).scope =
      (helper_nary_ad_constraint index size vars isRow).cells.map
        (fun p => varAt vars p) ∧
    ∀ t ∈ (helper_nary_ad_constraint index size vars isRow).satTuples,
      t ∈ listProd
        ((helper_nary_ad_constraint index size vars isRow).scope.map Variable.domain) :=
  ⟨rfl, fun _ ht => List.mem_of_mem_filter ht⟩

theorem kenken_csp_model_vars (g : List (List Int)) :
    (kenken_csp_model g).vars = (g.foldl cageStep (mkVars (gridSize g), [])).1 := rfl

theorem kenken_csp_model_cons (g : List (List Int)) :
    (kenken_csp_model g).cons =
      (g.foldl cageStep (mkVars (gridSize g), [])).2 ++
        (List.range (gridSize g)).flatMap (fun index =>
          [helper_nary_ad_constraint index (gridSize g)
              (g.foldl cageStep (mkVars (gridSize g), [])).1 true,
            helper_nary_ad_constraint index (gridSize g)
              (g.foldl cageStep (mkVars (gridSize g), [])).1 false]) := rfl

/-- C2 (amended): the forced-value override narrows the addressed variable
to the singleton domain, and it is seen by all cage rows appearing later in
the description and by the grid constraints (always compiled after the cage
loop); when every forced-value row precedes every proper cage row, every
compiled constraint's scope consists of the final board variables at its
cells and every satisfying tuple is drawn from their (narrowed) domains. -/
theorem kenken_forced_first (a b : List (List Int))
    (ha : ∀ r ∈ a, ¬ 2 < r.length) (hb : ∀ r ∈ b, r.length ≠ 2) :
    (kenken_csp_model (a ++ b)).vars =
        (a.foldl cageStep (mkVars (gridSize (a ++ b)), ([] : List KConstraint))).1 ∧
    (∀ c ∈ (kenken_csp_model (a ++ b)).cons,
        c.scope = c.cells.map (fun p => varAt (kenken_csp_model (a ++ b)).vars p) ∧
        ∀ t ∈ c.satTuples, t ∈ listProd (c.scope.map Variable.domain)) ∧
    (∀ (vc : List (List Variable) × List KConstraint) (cage : List Int),
        cage.length = 2 →
        ∀ ci cj, ci = ((cage.getD 0 0).fdiv 10 - 1).toNat →
          cj = ((cage.getD 0 0).emod 10 - 1).toNat →
          ci < vc.1.length → cj < (vc.1.getD ci []).length →
          varAt (cageStep vc cage).1 (ci, cj) =
            Variable.mk ("V" ++ toString (ci + 1) ++ toString (cj + 1))
              [cage.getD 1 0]) := by
  have hsplit : (a ++ b).foldl cageStep (mkVars (gridSize (a ++ b)), ([] : List KConstraint)) =
      b.foldl cageStep (a.foldl cageStep (mkVars (gridSize (a ++ b)), [])) :=
    List.foldl_append cageStep _ a b
  have hvars1 : (kenken_csp_model (a ++ b)).vars =
      (a.foldl cageStep (mkVars (gridSize (a ++ b)), ([] : List KConstraint))).1 := by
    rw [kenken_csp_model_vars, hsplit,
      foldl_cageStep_vars_const b hb (a.foldl cageStep (mkVars (gridSize (a ++ b)), []))]
  refine ⟨hvars1, ?_, ?_⟩
  · intro c hc
    rw [kenken_csp_model_cons] at hc
    rcases List.mem_append.mp hc with hc | hc
    · rw [hsplit] at hc
      rcases foldl_cageStep_cons_inv b hb _ c hc with h | h
      · rw [foldl_cageStep_cons_of_short a ha (mkVars (gridSize (a ++ b)), [])] at h
        simp at h
      · rw [← hvars1] at h
        exact h
    · rcases List.mem_flatMap.mp hc with ⟨index, hidx, hcm⟩
      have hv : (List.foldl cageStep (mkVars (gridSize (a ++ b)), ([] : List KConstraint)) (a ++ b)).1 =
          (kenken_csp_model (a ++ b)).vars := (kenken_csp_model_vars (a ++ b)).symm
      rcases List.mem_cons.mp hcm with rfl | hcm
      · rw [← hv]
        exact helper_nary_shape index (gridSize (a ++ b)) _ true
      · rcases List.mem_singleton.mp hcm with rfl
        rw [← hv]
        exact helper_nary_shape index (gridSize (a ++ b)) _ false
  · rintro vc cage h2 ci cj rfl rfl hci hcj
    have h1 : cage.length ≠ 1 := by omega
    unfold cageStep
    rw [if_neg h1, if_pos h2]
    unfold varAt
    rw [getD_set_self vc.1 _ _ [] hci, getD_set_self _ _ _ _ hcj]

theorem kenken_forced_first_witness :
    (kenken_csp_model ([[2], [11, 1]] ++ [[11, 12, 3, 0]])).vars =
      (List.foldl cageStep (mkVars (gridSize ([[2], [11, 1]] ++ [[11, 12, 3, 0]])),
        ([] : List KConstraint)) [[2], [11, 1]]).1 :=
  (kenken_forced_first [[2], [11, 1]] [[11, 12, 3, 0]] (by decide) (by decide)).1

/-- C2 is refuted on the code: in the description
`[[3], [11, 12, 3, 0], [11, 2]]` the cage row precedes the forced-value row
for cell (1,1); the compiled cage constraint references that cell yet keeps
the tuple `[1, 2]`, which cannot be drawn from the final (narrowed) domains
— the override did not take effect for a constraint compiled earlier. -/
theorem kenken_forced_order_cex :
    ((kenken_csp_model [[3], [11, 12, 3, 0], [11, 2]]).cons.map KConstraint.cells).headI
        = [(0, 0), (0, 1)] ∧
    ((kenken_csp_model [[3], [11, 12, 3, 0], [11, 2]]).cons.map KConstraint.satTuples).headI
        = [[1, 2], [2, 1]] ∧
    (varAt (kenken_csp_model [[3], [11, 12, 3, 0], [11, 2]]).vars (0, 0)).domain = [2] ∧
    ¬ ([1, 2] ∈ listProd ([(0, 0), (0, 1)].map (fun p =>
        (varAt (kenken_csp_model [[3], [11, 12, 3, 0], [11, 2]]).vars p).domain))) := by
  decide

/-! ## Binary and n-ary grid model equivalence (claim C5) -/

theorem dom_getElem? {n i : Nat} (hi : i < n) :
    (dom n)[i]? = some (Int.ofNat i + 1) := by
  unfold dom
  rw [List.getElem?_map]
  have h : (List.range n)[i]? = some i := by
    simp [List.getElem?_range, hi]
  rw [h]
  rfl

theorem varAt_mkVars_domain {n i j : Nat} (hi : i < n) (hj : j < n) :
    (varAt (mkVars n) (i, j)).domain = dom n := by
  unfold varAt mkVars
  simp [List.getD_eq_getElem?_getD, List.getElem?_map, dom_getElem? hi, dom_getElem? hj]

theorem forall₂_map_same {α β γ : Type} (R : β → γ → Prop) (f : α → β) (g : α → γ)
    (l : List α) : List.Forall₂ R (l.map f) (l.map g) ↔ ∀ x ∈ l, R (f x) (g x) := by
  induction l with
  | nil => simp
  | cons a as ih => simp [List.forall₂_cons, ih]

theorem mem_binary_satTuples {d1 d2 : List Int} {t : List Int} :
    t ∈ (listProd [d1, d2]).filter (fun t => decide (t.getD 0 0 ≠ t.getD 1 0)) ↔
      ∃ x y, t = [x, y] ∧ x ∈ d1 ∧ y ∈ d2 ∧ x ≠ y := by
  rw [List.mem_filter, mem_listProd]
  constructor
  · rintro ⟨hf, hd⟩
    cases hf with
    | cons hx hf2 =>
      cases hf2 with
      | cons hy hf3 =>
        cases hf3
        refine ⟨_, _, rfl, hx, hy, ?_⟩
        simpa using hd
  · rintro ⟨x, y, rfl, hx, hy, hne⟩
    exact ⟨List.Forall₂.cons hx (List.Forall₂.cons hy List.Forall₂.nil),
      by simpa using hne⟩

theorem mem_lineItems_range {n index : Nat} (hidx : index < n) (isRow : Bool)
    {p : Nat × Nat} (hp : p ∈ (if isRow then rowItems index n else colItems index n)) :
    p.1 < n ∧ p.2 < n := by
  cases isRow
  · simp only [Bool.false_eq_true, if_false, colItems, List.mem_map,
      List.mem_range] at hp
    obtain ⟨i, hi, rfl⟩ := hp
    exact ⟨hi, hidx⟩
  · simp only [if_true, rowItems, List.mem_map, List.mem_range] at hp
    obtain ⟨j, hj, rfl⟩ := hp
    exact ⟨hidx, hj⟩

theorem sat_helper_binary_iff (n index : Nat) (hidx : index < n) (isRow : Bool)
    (f : Nat → Nat → Int)
    (hf : ∀ i, i < n → ∀ j, j < n → f i j ∈ dom n) :
    (∀ c ∈ helper_binary_ne_constraint index n (mkVars n) isRow, satisfiesCon f c) ↔
      (if isRow then rowItems index n else colItems index n).Pairwise
        (fun p q => f p.1 p.2 ≠ f q.1 q.2) := by
  unfold helper_binary_ne_constraint
  rw [← pairsOf_forall_iff_pairwise, List.forall_mem_map]
  refine forall_congr' (fun pr => ?_)
  refine imp_congr_right (fun hpr => ?_)
  have h1 := mem_lineItems_range hidx isRow (mem_of_mem_pairsOf hpr).1
  have h2 := mem_lineItems_range hidx isRow (mem_of_mem_pairsOf hpr).2
  unfold satisfiesCon
  simp only [List.map_cons, List.map_nil]
  have e1 : varAt (mkVars n) pr.1 = varAt (mkVars n) (pr.1.1, pr.1.2) := rfl
  have e2 : varAt (mkVars n) pr.2 = varAt (mkVars n) (pr.2.1, pr.2.2) := rfl
  rw [e1, e2]
  rw [show ((varAt (mkVars n) (pr.1.1, pr.1.2)).domain) = dom n from
      varAt_mkVars_domain h1.1 h1.2,
    show ((varAt (mkVars n) (pr.2.1, pr.2.2)).domain) = dom n from
      varAt_mkVars_domain h2.1 h2.2]
  rw [mem_binary_satTuples]
  constructor
  · rintro ⟨x, y, he, hx, hy, hne⟩
    rcases List.cons.injEq .. ▸ he with _
    have hx' : f pr.1.1 pr.1.2 = x := by
      have := congrArg (fun l => List.getD l 0 0) he
      simpa using this
    have hy' : f pr.2.1 pr.2.2 = y := by
      have := congrArg (fun l => List.getD l 1 0) he
      simpa using this
    rw [hx', hy']
    exact hne
  · intro hne
    exact ⟨_, _, rfl, hf _ h1.1 _ h1.2, hf _ h2.1 _ h2.2, hne⟩

theorem sat_helper_nary_iff (n index : Nat) (hidx : index < n) (isRow : Bool)
    (f : Nat → Nat → Int)
    (hf : ∀ i, i < n → ∀ j, j < n → f i j ∈ dom n) :
    satisfiesCon f (helper_nary_ad_constraint index n (mkVars n) isRow) ↔
      (if isRow then rowItems index n else colItems index n).Pairwise
        (fun p q => f p.1 p.2 ≠ f q.1 q.2) := by
  unfold helper_nary_ad_constraint satisfiesCon
  simp only
  rw [List.mem_filter, mem_listProd, List.map_map]
  have hdoms :
      (if isRow then rowItems index n else colItems index n).map
          (Variable.domain ∘ fun v => varAt (mkVars n) v) =
        (if isRow then rowItems index n else colItems index n).map
          (fun _ => dom n) := by
    refine List.map_congr_left (fun p hp => ?_)
    have hr := mem_lineItems_range hidx isRow hp
    show (varAt (mkVars n) (p.1, p.2)).domain = dom n
    exact varAt_mkVars_domain hr.1 hr.2
  rw [hdoms, forall₂_map_same]
  constructor
  · rintro ⟨_, hlen⟩
    have hnd : ((if isRow then rowItems index n else colItems index n).map
        (fun p => f p.1 p.2)).Nodup := by
      have := of_decide_eq_true hlen
      exact (dedup_length_eq_iff_nodup _).mp this.symm
    exact List.pairwise_map.mp hnd
  · intro hpw
    refine ⟨fun p hp => hf _ (mem_lineItems_range hidx isRow hp).1 _
      (mem_lineItems_range hidx isRow hp).2, ?_⟩
    have hnd : ((if isRow then rowItems index n else colItems index n).map
        (fun p => f p.1 p.2)).Nodup := List.pairwise_map.mpr hpw
    exact decide_eq_true ((dedup_length_eq_iff_nodup _).mpr hnd).symm

theorem satisfiesModel_binary_iff (g : List (List Int)) (f : Nat → Nat → Int)
    (hf : ∀ i, i < gridSize g → ∀ j, j < gridSize g → f i j ∈ dom (gridSize g)) :
    satisfiesModel f (binary_ne_grid g) ↔
      ∀ index, index < gridSize g →
        (rowItems index (gridSize g)).Pairwise
            (fun p q => f p.1 p.2 ≠ f q.1 q.2) ∧
          (colItems index (gridSize g)).Pairwise
            (fun p q => f p.1 p.2 ≠ f q.1 q.2) := by
  unfold satisfiesModel binary_ne_grid
  simp only
  constructor
  · intro h index hidx
    have hrow := (sat_helper_binary_iff (gridSize g) index hidx true f hf).mp
      (fun c hc => h c (List.mem_flatMap.mpr
        ⟨index, List.mem_range.mpr hidx, List.mem_append_left _ hc⟩))
    have hcol := (sat_helper_binary_iff (gridSize g) index hidx false f hf).mp
      (fun c hc => h c (List.mem_flatMap.mpr
        ⟨index, List.mem_range.mpr hidx, List.mem_append_right _ hc⟩))
    simpa using And.intro hrow hcol
  · intro h c hc
    rcases List.mem_flatMap.mp hc with ⟨index, hidx, hcm⟩
    have hidx' := List.mem_range.mp hidx
    rcases List.mem_append.mp hcm with hcm | hcm
    · exact (sat_helper_binary_iff (gridSize g) index hidx' true f hf).mpr
        (by simpa using (h index hidx').1) c hcm
    · exact (sat_helper_binary_iff (gridSize g) index hidx' false f hf).mpr
        (by simpa using (h index hidx').2) c hcm

theorem satisfiesModel_nary_iff (g : List (List Int)) (f : Nat → Nat → Int)
    (hf : ∀ i, i < gridSize g → ∀ j, j < gridSize g → f i j ∈ dom (gridSize g)) :
    satisfiesModel f (nary_ad_grid g) ↔
      ∀ index, index < gridSize g →
        (rowItems index (gridSize g)).Pairwise
            (fun p q => f p.1 p.2 ≠ f q.1 q.2) ∧
          (colItems index (gridSize g)).Pairwise
            (fun p q => f p.1 p.2 ≠ f q.1 q.2) := by
  unfold satisfiesModel nary_ad_grid
  simp only
  constructor
  · intro h index hidx
    have hrow := (sat_helper_nary_iff (gridSize g) index hidx true f hf).mp
      (h _ (List.mem_flatMap.mpr ⟨index, List.mem_range.mpr hidx,
        List.mem_cons_self _ _⟩))
    have hcol := (sat_helper_nary_iff (gridSize g) index hidx false f hf).mp
      (h _ (List.mem_flatMap.mpr ⟨index, List.mem_range.mpr hidx,
        List.mem_cons_of_mem _ (List.mem_singleton.mpr rfl)⟩))
    simpa using And.intro hrow hcol
  · intro h c hc
    rcases List.mem_flatMap.mp hc with ⟨index, hidx, hcm⟩
    have hidx' := List.mem_range.mp hidx
    rcases List.mem_cons.mp hcm with rfl | hcm
    · exact (sat_helper_nary_iff (gridSize g) index hidx' true f hf).mpr
        (by simpa using (h index hidx').1)
    · rcases List.mem_singleton.mp hcm with rfl
      exact (sat_helper_nary_iff (gridSize g) index hidx' false f hf).mpr
        (by simpa using (h index hidx').2)

/-- C5: for every grid description and every assignment of one value from
the domain to each cell, the binary not-equal model and the n-ary
all-different model accept exactly the same full-grid assignments. -/
theorem grid_models_equivalent (g : List (List Int)) (hn : 1 ≤ gridSize g)
    (f : Nat → Nat → Int)
    (hf : ∀ i, i < gridSize g → ∀ j, j < gridSize g → f i j ∈ dom (gridSize g)) :
    satisfiesModel f (binary_ne_grid g) ↔ satisfiesModel f (nary_ad_grid g) := by
  rw [satisfiesModel_binary_iff g f hf, satisfiesModel_nary_iff g f hf]

theorem grid_models_equivalent_witness :
    1 ≤ gridSize [[2]] ∧
      (satisfiesModel (fun i j => if (i + j) % 2 = 0 then 1 else 2)
          (binary_ne_grid [[2]]) ↔
        satisfiesModel (fun i j => if (i + j) % 2 = 0 then 1 else 2)
          (nary_ad_grid [[2]])) :=
  ⟨by decide, grid_models_equivalent [[2]] (by decide)
    (fun i j => if (i + j) % 2 = 0 then 1 else 2) (by decide)⟩

/-! ## Embedding of heuristics.py over the runtime problem state -/

/-- Modelled from the spec: a runtime variable of the `cspbase` problem
state (§6): an identity, the current domain, and the at-most-one assigned
value.  Distinct Python `Variable` objects are modelled by distinct `id`s. -/
structure PVar where
  id : Nat
  curDom : List Int
  assigned : Option Int
deriving DecidableEq

/-- Modelled from the spec: a runtime constraint (§6): an ordered scope of
variables (by identity) and its satisfying tuples, positionally aligned
with the scope. -/
structure RConstraint where
  scope : List Nat
  satTuples : List (List Int)
deriving DecidableEq

/-- Modelled from the spec: the problem (CSP) container (§6): the variables
in their iteration order, and the constraints. -/
structure PState where
  vars : List PVar
  cons : List RConstraint
deriving DecidableEq

/-- Look a variable up by identity. -/
def findVar (s : PState) (v : Nat) : Option PVar :=
  s.vars.find? (fun pv => pv.id == v)

/-- Modelled from the spec: `get_all_unasgn_vars()` — the unassigned
variables of the problem, in iteration order. -/
def get_all_unasgn_vars (s : PState) : List Nat :=
  (s.vars.filter (fun pv => pv.assigned.isNone)).map PVar.id

/-- Modelled from the spec: `get_cons_with_var(v)` — the constraints whose
scope contains the variable. -/
def get_cons_with_var (s : PState) (v : Nat) : List RConstraint :=
  s.cons.filter (fun c => decide (v ∈ c.scope))

/-- The assignment status of a variable, by identity. -/
def varAssigned (s : PState) (v : Nat) : Option Int :=
  match findVar s v with
  | some pv => pv.assigned
  | none => none

/-- Modelled from the spec: `c.get_unasgn_vars()` — the unassigned
variables of the constraint's scope. -/
def get_unasgn_vars (s : PState) (c : RConstraint) : List Nat :=
  c.scope.filter (fun w => (varAssigned s w).isNone)

/-- Modelled from the spec: `cur_domain()` — the current domain sequence;
an assigned variable's current domain is the singleton of its value. -/
def cur_domain (s : PState) (v : Nat) : List Int :=
  match findVar s v with
  | some pv =>
    match pv.assigned with
    | some a => [a]
    | none => pv.curDom
  | none => []

/-- `cur_domain_size()`. -/
def cur_domain_size (s : PState) (v : Nat) : Nat := (cur_domain s v).length

/-- Modelled from the spec: `assign(d)` sets the sole assigned value. -/
def assign (s : PState) (v : Nat) (d : Int) : PState :=
  { s with vars := s.vars.map (fun pv =>
      if pv.id = v then { pv with assigned := some d } else pv) }

/-- Modelled from the spec: `unassign(d)` clears the assigned value (the
value argument plays no role). -/
def unassign (s : PState) (v : Nat) (d : Int) : PState :=
  { s with vars := s.vars.map (fun pv =>
      if pv.id = v then { pv with assigned := none } else pv) }

/-- Modelled from the spec: `c.has_support(v, val)` — some satisfying tuple
assigns `val` to `v` and is consistent with every other scope variable's
current assignment/domain. -/
def has_support (s : PState) (c : RConstraint) (v : Nat) (val : Int) : Bool :=
  c.satTuples.any (fun t =>
    (c.scope.zip t).all (fun wx =>
      if wx.1 = v then wx.2 == val else decide (wx.2 ∈ cur_domain s wx.1)))

/-- The inner loop of `ord_dh` over one constraint: count the unassigned
variables other than `v` not yet in the visited list `seen`. -/
def dhCount (v : Nat) : List Nat → List Nat → Nat
  | _, [] => 0
  | seen, u :: rest =>
    if u ≠ v ∧ u ∉ seen then dhCount v (seen ++ [u]) rest + 1
    else dhCount v seen rest

/-- `curDegree` of a candidate in `ord_dh`: the visited-list scan of each
constraint touching it, summed over those constraints — the visited list is
reset for each constraint, exactly as in the code. -/
def dhDegree (s : PState) (v : Nat) : Nat :=
  ((get_cons_with_var s v).map (fun c => dhCount v [] (get_unasgn_vars s c))).sum

/-- The selection loop of `ord_dh`, carrying `maxDegree` (initially `-1`)
and the best variable so far (initially `None`). -/
def ord_dh_go (s : PState) : Int → Option Nat → List Nat → Option Nat
  | _, var, [] => var
  | maxDegree, var, v :: rest =>
    if (dhDegree s v : Int) > maxDegree then ord_dh_go s (dhDegree s v) (some v) rest
    else ord_dh_go s maxDegree var rest

/-- `ord_dh(csp)`. -/
def ord_dh (s : PState) : Option Nat :=
  ord_dh_go s (-1) none (get_all_unasgn_vars s)

/-- The selection loop of `ord_mrv`, carrying `mrv` — initially
`float('inf')`, modelled as `⊤` in `WithTop Nat` — and the best variable so
far. -/
def ord_mrv_go (s : PState) : WithTop Nat → Option Nat → List Nat → Option Nat
  | _, var, [] => var
  | mrv, var, v :: rest =>
    if (cur_domain_size s v : WithTop Nat) < mrv then
      ord_mrv_go s (cur_domain_size s v) (some v) rest
    else ord_mrv_go s mrv var rest

/-- `ord_mrv(csp)`. -/
def ord_mrv (s : PState) : Option Nat :=
  ord_mrv_go s ⊤ none (get_all_unasgn_vars s)

/-- `numPruned` for the tentatively extended state: over every constraint
touching `v`, every unassigned variable of that constraint and every value
of its current domain, count the values without support. -/
def numPruned (s1 : PState) (v : Nat) : Nat :=
  ((get_cons_with_var s1 v).map (fun c =>
    ((get_unasgn_vars s1 c).map (fun adjV =>
      ((cur_domain s1 adjV).filter (fun adjVal =>
        ! has_support s1 c adjV adjVal)).length)).sum)).sum

/-- The probe loop of `val_lcv`: iterate over the pre-computed current
domain, thread the mutated state through assign/probe/unassign, and
accumulate the `(value, numPruned)` pairs. -/
def lcv_loop (v : Nat) : PState → List Int → List (Int × Nat) →
    List (Int × Nat) × PState
  | s, [], valOrder => (valOrder, s)
  | s, d :: ds, valOrder =>
    let s1 := assign s v d
    let np := numPruned s1 v
    let s2 := unassign s1 v d
    lcv_loop v s2 ds (valOrder ++ [(d, np)])

/-- `val_lcv(csp, var)`: probe every current-domain value, then return the
values ordered ascending by `numPruned` (Python's `sorted` is stable), and
the resulting problem state. -/
def val_lcv (s : PState) (v : Nat) : List Int × PState :=
  let r := lcv_loop v s (cur_domain s v) []
  ((stableSortByKey Prod.snd r.1).map Prod.fst, r.2)

/-! ## Variable-selection heuristics (claims C1, C8, C9) -/

theorem ord_mrv_go_shape (s : PState) (l : List Nat) :
    ∀ (m : WithTop Nat) (vo : Option Nat),
      ((∀ w ∈ l, ¬ ((cur_domain_size s w : WithTop Nat) < m)) ∧
        ord_mrv_go s m vo l = vo) ∨
      (∃ v l1 l2, l = l1 ++ v :: l2 ∧ ord_mrv_go s m vo l = some v ∧
        (cur_domain_size s v : WithTop Nat) < m ∧
        (∀ w ∈ l1, cur_domain_size s v < cur_domain_size s w) ∧
        (∀ w ∈ l2, cur_domain_size s v ≤ cur_domain_size s w)) := by
  induction l with
  | nil => intro m vo; exact Or.inl ⟨by simp, rfl⟩
  | cons u rest ih =>
    intro m vo
    by_cases hu : (cur_domain_size s u : WithTop Nat) < m
    · rcases ih (cur_domain_size s u) (some u) with ⟨hall, heq⟩ |
        ⟨v, l1, l2, hsplit, heq, hlt, h1, h2⟩
      · refine Or.inr ⟨u, [], rest, rfl, ?_, hu, by simp, ?_⟩
        · simp only [ord_mrv_go, if_pos hu]
          exact heq
        · intro w hw
          exact Nat.le_of_not_lt (fun hc => hall w hw (WithTop.coe_lt_coe.mpr hc))
      · refine Or.inr ⟨v, u :: l1, l2, by rw [hsplit, List.cons_append], ?_, lt_trans hlt hu, ?_, h2⟩
        · simp only [ord_mrv_go, if_pos hu]
          exact heq
        · intro w hw
          rcases List.mem_cons.mp hw with rfl | hw
          · exact WithTop.coe_lt_coe.mp hlt
          · exact h1 w hw
    · rcases ih m vo with ⟨hall, heq⟩ | ⟨v, l1, l2, hsplit, heq, hlt, h1, h2⟩
      · refine Or.inl ⟨?_, ?_⟩
        · intro w hw
          rcases List.mem_cons.mp hw with rfl | hw
          · exact hu
          · exact hall w hw
        · simp only [ord_mrv_go, if_neg hu]
          exact heq
      · refine Or.inr ⟨v, u :: l1, l2, by rw [hsplit, List.cons_append], ?_, hlt, ?_, h2⟩
        · simp only [ord_mrv_go, if_neg hu]
          exact heq
        · intro w hw
          rcases List.mem_cons.mp hw with rfl | hw
          · exact WithTop.coe_lt_coe.mp (lt_of_lt_of_le hlt (not_lt.mp hu))
          · exact h1 w hw

theorem ord_dh_go_shape (s : PState) (l : List Nat) :
    ∀ (m : Int) (vo : Option Nat),
      ((∀ w ∈ l, ¬ ((dhDegree s w : Int) > m)) ∧ ord_dh_go s m vo l = vo) ∨
      (∃ v l1 l2, l = l1 ++ v :: l2 ∧ ord_dh_go s m vo l = some v ∧
        (dhDegree s v : Int) > m ∧
        (∀ w ∈ l1, dhDegree s w < dhDegree s v) ∧
        (∀ w ∈ l2, dhDegree s w ≤ dhDegree s v)) := by
  induction l with
  | nil => intro m vo; exact Or.inl ⟨by simp, rfl⟩
  | cons u rest ih =>
    intro m vo
    by_cases hu : (dhDegree s u : Int) > m
    · rcases ih (dhDegree s u) (some u) with ⟨hall, heq⟩ |
        ⟨v, l1, l2, hsplit, heq, hlt, h1, h2⟩
      · refine Or.inr ⟨u, [], rest, rfl, ?_, hu, by simp, ?_⟩
        · simp only [ord_dh_go, if_pos hu]
          exact heq
        · intro w hw
          have := hall w hw
          omega
      · refine Or.inr ⟨v, u :: l1, l2, by rw [hsplit, List.cons_append], ?_, lt_trans hu hlt, ?_, h2⟩
        · simp only [ord_dh_go, if_pos hu]
          exact heq
        · intro w hw
          rcases List.mem_cons.mp hw with rfl | hw
          · omega
          · exact h1 w hw
    · rcases ih m vo with ⟨hall, heq⟩ | ⟨v, l1, l2, hsplit, heq, hlt, h1, h2⟩
      · refine Or.inl ⟨?_, ?_⟩
        · intro w hw
          rcases List.mem_cons.mp hw with rfl | hw
          · exact hu
          · exact hall w hw
        · simp only [ord_dh_go, if_neg hu]
          exact heq
      · refine Or.inr ⟨v, u :: l1, l2, by rw [hsplit, List.cons_append], ?_, hlt, ?_, h2⟩
        · simp only [ord_dh_go, if_neg hu]
          exact heq
        · intro w hw
          rcases List.mem_cons.mp hw with rfl | hw
          · omega
          · exact h1 w hw

/-- C8: on a state with at least one unassigned variable, `ord_mrv` returns
an unassigned variable of minimal current-domain size, and — the strict
`<` comparison keeping the incumbent on ties — the first such variable in
the iteration order of `get_all_unasgn_vars`. -/
theorem ord_mrv_first_min (s : PState) (hne : get_all_unasgn_vars s ≠ []) :
    ∃ v l1 l2, ord_mrv s = some v ∧
      get_all_unasgn_vars s = l1 ++ v :: l2 ∧
      (∀ w ∈ get_all_unasgn_vars s, cur_domain_size s v ≤ cur_domain_size s w) ∧
      (∀ w ∈ l1, cur_domain_size s v < cur_domain_size s w) := by
  rcases ord_mrv_go_shape s (get_all_unasgn_vars s) ⊤ none with ⟨hall, _⟩ |
    ⟨v, l1, l2, hsplit, heq, _, h1, h2⟩
  · cases hl : get_all_unasgn_vars s with
    | nil => exact absurd hl hne
    | cons a as =>
      exact absurd (WithTop.coe_lt_top _)
        (hall a (by rw [hl]; exact List.mem_cons_self _ _))
  · refine ⟨v, l1, l2, heq, hsplit, ?_, h1⟩
    intro w hw
    rw [hsplit] at hw
    rcases List.mem_append.mp hw with hw | hw
    · exact Nat.le_of_lt (h1 w hw)
    · rcases List.mem_cons.mp hw with rfl | hw
      · exact Nat.le_refl _
      · exact h2 w hw

theorem ord_mrv_first_min_witness :
    get_all_unasgn_vars ⟨[⟨0, [1, 2], none⟩, ⟨1, [5], none⟩, ⟨2, [7], none⟩], []⟩ ≠ [] ∧
      ∃ v l1 l2,
        ord_mrv ⟨[⟨0, [1, 2], none⟩, ⟨1, [5], none⟩, ⟨2, [7], none⟩], []⟩ = some v ∧
        get_all_unasgn_vars ⟨[⟨0, [1, 2], none⟩, ⟨1, [5], none⟩, ⟨2, [7], none⟩], []⟩ =
          l1 ++ v :: l2 ∧
        (∀ w ∈ get_all_unasgn_vars ⟨[⟨0, [1, 2], none⟩, ⟨1, [5], none⟩, ⟨2, [7], none⟩], []⟩,
          cur_domain_size ⟨[⟨0, [1, 2], none⟩, ⟨1, [5], none⟩, ⟨2, [7], none⟩], []⟩ v ≤
            cur_domain_size ⟨[⟨0, [1, 2], none⟩, ⟨1, [5], none⟩, ⟨2, [7], none⟩], []⟩ w) ∧
        (∀ w ∈ l1,
          cur_domain_size ⟨[⟨0, [1, 2], none⟩, ⟨1, [5], none⟩, ⟨2, [7], none⟩], []⟩ v <
            cur_domain_size ⟨[⟨0, [1, 2], none⟩, ⟨1, [5], none⟩, ⟨2, [7], none⟩], []⟩ w) :=
  ⟨by decide, ord_mrv_first_min ⟨[⟨0, [1, 2], none⟩, ⟨1, [5], none⟩, ⟨2, [7], none⟩], []⟩
    (by decide)⟩

/-- C9: both variable-selection heuristics return `None` exactly when no
unassigned variable remains, and any variable they return is one of the
problem's unassigned variables. -/
theorem heuristics_return_unassigned (s : PState) :
    (ord_dh s = none ↔ get_all_unasgn_vars s = []) ∧
    (ord_mrv s = none ↔ get_all_unasgn_vars s = []) ∧
    (∀ u, ord_dh s = some u → u ∈ get_all_unasgn_vars s) ∧
    (∀ u, ord_mrv s = some u → u ∈ get_all_unasgn_vars s) := by
  have hdh := ord_dh_go_shape s (get_all_unasgn_vars s) (-1) none
  have hmrv := ord_mrv_go_shape s (get_all_unasgn_vars s) ⊤ none
  refine ⟨⟨?_, ?_⟩, ⟨?_, ?_⟩, ?_, ?_⟩
  · intro h
    rcases hdh with ⟨hall, _⟩ | ⟨v, l1, l2, _, heq, _, _, _⟩
    · cases hl : get_all_unasgn_vars s with
      | nil => rfl
      | cons a as =>
        have := hall a (by rw [hl]; exact List.mem_cons_self _ _)
        omega
    · rw [show ord_dh s = some v from heq] at h
      exact absurd h (by simp)
  · intro h
    show ord_dh_go s (-1) none (get_all_unasgn_vars s) = none
    rw [h]
    rfl
  · intro h
    rcases hmrv with ⟨hall, _⟩ | ⟨v, l1, l2, _, heq, _, _, _⟩
    · cases hl : get_all_unasgn_vars s with
      | nil => rfl
      | cons a as =>
        exact absurd (WithTop.coe_lt_top _)
          (hall a (by rw [hl]; exact List.mem_cons_self _ _))
    · rw [show ord_mrv s = some v from heq] at h
      exact absurd h (by simp)
  · intro h
    show ord_mrv_go s ⊤ none (get_all_unasgn_vars s) = none
    rw [h]
    rfl
  · intro u h
    rcases hdh with ⟨_, heq⟩ | ⟨v, l1, l2, hsplit, heq, _, _, _⟩
    · rw [show ord_dh s = none from heq] at h
      exact absurd h (by simp)
    · rw [show ord_dh s = some v from heq] at h
      rcases Option.some.injEq .. ▸ h with rfl
      rw [hsplit]
      exact List.mem_append_right _ (List.mem_cons_self _ _)
  · intro u h
    rcases hmrv with ⟨_, heq⟩ | ⟨v, l1, l2, hsplit, heq, _, _, _⟩
    · rw [show ord_mrv s = none from heq] at h
      exact absurd h (by simp)
    · rw [show ord_mrv s = some v from heq] at h
      rcases Option.some.injEq .. ▸ h with rfl
      rw [hsplit]
      exact List.mem_append_right _ (List.mem_cons_self _ _)

theorem heuristics_return_unassigned_witness :
    ord_dh ⟨[], []⟩ = none ∧ ord_mrv ⟨[], []⟩ = none ∧
      0 ∈ get_all_unasgn_vars ⟨[⟨0, [1], none⟩], []⟩ ∧
      0 ∈ get_all_unasgn_vars ⟨[⟨0, [7], none⟩], []⟩ :=
  ⟨(heuristics_return_unassigned ⟨[], []⟩).1.mpr rfl,
    (heuristics_return_unassigned ⟨[], []⟩).2.1.mpr rfl,
    (heuristics_return_unassigned ⟨[⟨0, [1], none⟩], []⟩).2.2.1 0 (by decide),
    (heuristics_return_unassigned ⟨[⟨0, [7], none⟩], []⟩).2.2.2 0 (by decide)⟩

theorem dhCount_eq (v : Nat) :
    ∀ (l seen : List Nat),
      dhCount v seen l =
        ((l.filter (fun u => decide (u ≠ v ∧ u ∉ seen))).toFinset).card := by
  intro l
  induction l with
  | nil => intro seen; simp [dhCount]
  | cons u rest ih =>
    intro seen
    by_cases q : u ≠ v ∧ u ∉ seen
    · rw [dhCount, if_pos q, ih (seen ++ [u])]
      rw [List.filter_cons_of_pos (by simpa using q)]
      rw [List.toFinset_cons]
      have hps : rest.filter (fun x => decide (x ≠ v ∧ x ∉ seen ++ [u])) =
          (rest.filter (fun x => decide (x ≠ v ∧ x ∉ seen))).filter
            (fun x => decide (x ≠ u)) := by
        rw [List.filter_filter]
        refine List.filter_congr (fun x _ => ?_)
        rw [← Bool.decide_and]
        refine decide_eq_decide.mpr ?_
        simp only [List.mem_append, List.mem_singleton]
        tauto
      rw [hps, List.toFinset_filter]
      have herase :
          Finset.filter (fun x => decide (x ≠ u) = true)
              (rest.filter (fun x => decide (x ≠ v ∧ x ∉ seen))).toFinset =
            (rest.filter (fun x => decide (x ≠ v ∧ x ∉ seen))).toFinset.erase u := by
        ext x
        simp only [Finset.mem_filter, Finset.mem_erase, decide_eq_true_eq]
        tauto
      rw [herase]
      set T := (rest.filter (fun x => decide (x ≠ v ∧ x ∉ seen))).toFinset with hT
      by_cases hmem : u ∈ T
      · rw [Finset.card_erase_of_mem hmem, Finset.insert_eq_self.mpr hmem]
        have : 1 ≤ T.card := Finset.card_pos.mpr ⟨u, hmem⟩
        omega
      · rw [Finset.erase_eq_of_not_mem hmem, Finset.card_insert_of_not_mem hmem]
    · rw [dhCount, if_neg q, ih seen, List.filter_cons_of_neg (by simpa using q)]

/-- The per-candidate degree described by claim C1: the distinct unassigned
variables other than `v` gathered across all constraints touching `v`,
de-duplicated globally. -/
def dh_degree_claim (s : PState) (v : Nat) : Nat :=
  (((get_cons_with_var s v).flatMap (fun c => get_unasgn_vars s c)).filter
    (fun u => decide (u ≠ v))).toFinset.card

/-- C1 is refuted on the code: `seenVars` is reset inside the per-constraint
loop, so a neighbour sharing several constraints with the candidate is
counted once per shared constraint.  In this state variable 0 shares three
constraints with its single distinct neighbour (claim-degree 1) while
variable 2 has two distinct neighbours (claim-degree 2); `ord_dh` still
returns variable 0. -/
theorem ord_dh_dedup_cex :
    ord_dh ⟨[⟨0, [1], none⟩, ⟨1, [1], none⟩, ⟨2, [1], none⟩, ⟨3, [1], none⟩,
        ⟨4, [1], none⟩],
      [⟨[0, 1], []⟩, ⟨[0, 1], []⟩, ⟨[0, 1], []⟩, ⟨[2, 3], []⟩, ⟨[2, 4], []⟩]⟩ = some 0 ∧
    2 ∈ get_all_unasgn_vars ⟨[⟨0, [1], none⟩, ⟨1, [1], none⟩, ⟨2, [1], none⟩,
        ⟨3, [1], none⟩, ⟨4, [1], none⟩],
      [⟨[0, 1], []⟩, ⟨[0, 1], []⟩, ⟨[0, 1], []⟩, ⟨[2, 3], []⟩, ⟨[2, 4], []⟩]⟩ ∧
    dh_degree_claim ⟨[⟨0, [1], none⟩, ⟨1, [1], none⟩, ⟨2, [1], none⟩, ⟨3, [1], none⟩,
        ⟨4, [1], none⟩],
      [⟨[0, 1], []⟩, ⟨[0, 1], []⟩, ⟨[0, 1], []⟩, ⟨[2, 3], []⟩, ⟨[2, 4], []⟩]⟩ 0 <
      dh_degree_claim ⟨[⟨0, [1], none⟩, ⟨1, [1], none⟩, ⟨2, [1], none⟩, ⟨3, [1], none⟩,
          ⟨4, [1], none⟩],
        [⟨[0, 1], []⟩, ⟨[0, 1], []⟩, ⟨[0, 1], []⟩, ⟨[2, 3], []⟩, ⟨[2, 4], []⟩]⟩ 2 := by
  refine ⟨?_, by decide, by decide⟩
  decide

/-- C1 (amended): `ord_dh` scores each unassigned candidate by summing,
over the constraints touching it, the number of distinct other unassigned
variables within each single constraint (the visited list is reset per
constraint, so a neighbour contributes once per shared constraint), and it
returns the first candidate of maximal such score in the iteration order of
`get_all_unasgn_vars`. -/
theorem ord_dh_amended (s : PState) (hne : get_all_unasgn_vars s ≠ []) :
    (∀ w, dhDegree s w =
      ((get_cons_with_var s w).map (fun c =>
        (((get_unasgn_vars s c).filter (fun u => decide (u ≠ w))).toFinset).card)).sum) ∧
    ∃ v l1 l2, ord_dh s = some v ∧
      get_all_unasgn_vars s = l1 ++ v :: l2 ∧
      (∀ w ∈ get_all_unasgn_vars s, dhDegree s w ≤ dhDegree s v) ∧
      (∀ w ∈ l1, dhDegree s w < dhDegree s v) := by
  constructor
  · intro w
    unfold dhDegree
    refine congrArg List.sum (List.map_congr_left (fun c _ => ?_))
    rw [dhCount_eq]
    congr 1
    refine congrArg List.toFinset (List.filter_congr (fun u _ => ?_))
    simp
  · rcases ord_dh_go_shape s (get_all_unasgn_vars s) (-1) none with ⟨hall, _⟩ |
      ⟨v, l1, l2, hsplit, heq, _, h1, h2⟩
    · cases hl : get_all_unasgn_vars s with
      | nil => exact absurd hl hne
      | cons a as =>
        have := hall a (by rw [hl]; exact List.mem_cons_self _ _)
        omega
    · refine ⟨v, l1, l2, heq, hsplit, ?_, h1⟩
      intro w hw
      rw [hsplit] at hw
      rcases List.mem_append.mp hw with hw | hw
      · exact Nat.le_of_lt (h1 w hw)
      · rcases List.mem_cons.mp hw with rfl | hw
        · exact Nat.le_refl _
        · exact h2 w hw

theorem ord_dh_amended_witness :
    get_all_unasgn_vars ⟨[⟨0, [1], none⟩, ⟨1, [2, 3], none⟩], [⟨[0, 1], []⟩]⟩ ≠ [] ∧
      ((∀ w, dhDegree ⟨[⟨0, [1], none⟩, ⟨1, [2, 3], none⟩], [⟨[0, 1], []⟩]⟩ w =
        ((get_cons_with_var ⟨[⟨0, [1], none⟩, ⟨1, [2, 3], none⟩], [⟨[0, 1], []⟩]⟩ w).map
          (fun c =>
            (((get_unasgn_vars ⟨[⟨0, [1], none⟩, ⟨1, [2, 3], none⟩], [⟨[0, 1], []⟩]⟩ c).filter
              (fun u => decide (u ≠ w))).toFinset).card)).sum) ∧
      ∃ v l1 l2,
        ord_dh ⟨[⟨0, [1], none⟩, ⟨1, [2, 3], none⟩], [⟨[0, 1], []⟩]⟩ = some v ∧
        get_all_unasgn_vars ⟨[⟨0, [1], none⟩, ⟨1, [2, 3], none⟩], [⟨[0, 1], []⟩]⟩ =
          l1 ++ v :: l2 ∧
        (∀ w ∈ get_all_unasgn_vars ⟨[⟨0, [1], none⟩, ⟨1, [2, 3], none⟩], [⟨[0, 1], []⟩]⟩,
          dhDegree ⟨[⟨0, [1], none⟩, ⟨1, [2, 3], none⟩], [⟨[0, 1], []⟩]⟩ w ≤
            dhDegree ⟨[⟨0, [1], none⟩, ⟨1, [2, 3], none⟩], [⟨[0, 1], []⟩]⟩ v) ∧
        (∀ w ∈ l1,
          dhDegree ⟨[⟨0, [1], none⟩, ⟨1, [2, 3], none⟩], [⟨[0, 1], []⟩]⟩ w <
            dhDegree ⟨[⟨0, [1], none⟩, ⟨1, [2, 3], none⟩], [⟨[0, 1], []⟩]⟩ v)) :=
  ⟨by decide, ord_dh_amended ⟨[⟨0, [1], none⟩, ⟨1, [2, 3], none⟩], [⟨[0, 1], []⟩]⟩
    (by decide)⟩

/-! ## Value-ordering heuristic (claims C6, C7) -/

/-- Every variable record carrying this identity is unassigned (in a state
that models a Python problem faithfully — one record per object — this is
simply "the variable is unassigned"). -/
def varUnassigned (s : PState) (v : Nat) : Prop :=
  ∀ pv ∈ s.vars, pv.id = v → pv.assigned = none

instance (s : PState) (v : Nat) : Decidable (varUnassigned s v) := by
  unfold varUnassigned
  infer_instance

theorem unassign_assign (s : PState) (v : Nat) (d d2 : Int)
    (h : varUnassigned s v) : unassign (assign s v d) v d2 = s := by
  unfold assign unassign
  cases s with
  | mk vars cons =>
    simp only [PState.mk.injEq, and_true]
    rw [List.map_map]
    have hid : ∀ pv ∈ vars,
        ((fun pv => if pv.id = v then { pv with assigned := none } else pv) ∘
          (fun pv => if pv.id = v then { pv with assigned := some d } else pv)) pv =
          id pv := by
      intro pv hpv
      by_cases hv : pv.id = v
      · have hass : pv.assigned = none := h pv hpv hv
        cases pv with
        | mk i c a =>
          simp only at hv hass
          simp [Function.comp_apply, hv, hass]
      · simp only [Function.comp_apply, if_neg hv, id_eq, if_neg hv]
    rw [List.map_congr_left hid, List.map_id]

theorem lcv_loop_spec (s : PState) (v : Nat) (h : varUnassigned s v) :
    ∀ (ds : List Int) (acc : List (Int × Nat)),
      lcv_loop v s ds acc =
        (acc ++ ds.map (fun d => (d, numPruned (assign s v d) v)), s) := by
  intro ds
  induction ds with
  | nil => intro acc; simp [lcv_loop]
  | cons d rest ih =>
    intro acc
    show lcv_loop v (unassign (assign s v d) v d) rest
        (acc ++ [(d, numPruned (assign s v d) v)]) = _
    rw [unassign_assign s v d d h, ih]
    simp

/-- C6 is refuted on the code when the probed variable is already assigned:
`val_lcv` ends by unassigning it, so the state is not restored. -/
theorem val_lcv_frame_cex :
    (val_lcv ⟨[⟨0, [1, 2], some 1⟩], []⟩ 0).2 ≠ ⟨[⟨0, [1, 2], some 1⟩], []⟩ := by
  decide

/-- C6 (amended): for a variable that is unassigned at call time — the
calling convention of the search engine — `val_lcv` returns a permutation
of the variable's current domain, restores the problem state exactly, and
leaves the variable unassigned. -/
theorem val_lcv_frame (s : PState) (v : Nat) (h : varUnassigned s v) :
    (val_lcv s v).2 = s ∧
    List.Perm (val_lcv s v).1 (cur_domain s v) ∧
    varUnassigned (val_lcv s v).2 v := by
  have hloop := lcv_loop_spec s v h (cur_domain s v) []
  have hsnd : (val_lcv s v).2 = s := by
    unfold val_lcv
    rw [hloop]
  have hfst : (val_lcv s v).1 = (stableSortByKey Prod.snd
      ((cur_domain s v).map (fun d => (d, numPruned (assign s v d) v)))).map
        Prod.fst := by
    unfold val_lcv
    rw [hloop]
    simp
  refine ⟨hsnd, ?_, by rw [hsnd]; exact h⟩
  rw [hfst]
  have hs := stableSortByKey_perm Prod.snd
    ((cur_domain s v).map (fun d => (d, numPruned (assign s v d) v)))
  have hm := hs.map Prod.fst
  rw [List.map_map] at hm
  have : (cur_domain s v).map
      (Prod.fst ∘ fun d => (d, numPruned (assign s v d) v)) = cur_domain s v := by
    rw [show (Prod.fst ∘ fun d => (d, numPruned (assign s v d) v)) = id from rfl,
      List.map_id]
  rwa [this] at hm

theorem val_lcv_frame_witness :
    varUnassigned ⟨[⟨0, [1, 2], none⟩, ⟨1, [1, 2], none⟩], [⟨[0, 1], [[1, 2]]⟩]⟩ 0 ∧
      ((val_lcv ⟨[⟨0, [1, 2], none⟩, ⟨1, [1, 2], none⟩], [⟨[0, 1], [[1, 2]]⟩]⟩ 0).2 =
          ⟨[⟨0, [1, 2], none⟩, ⟨1, [1, 2], none⟩], [⟨[0, 1], [[1, 2]]⟩]⟩ ∧
        List.Perm
          (val_lcv ⟨[⟨0, [1, 2], none⟩, ⟨1, [1, 2], none⟩], [⟨[0, 1], [[1, 2]]⟩]⟩ 0).1
          (cur_domain ⟨[⟨0, [1, 2], none⟩, ⟨1, [1, 2], none⟩], [⟨[0, 1], [[1, 2]]⟩]⟩ 0) ∧
        varUnassigned
          (val_lcv ⟨[⟨0, [1, 2], none⟩, ⟨1, [1, 2], none⟩], [⟨[0, 1], [[1, 2]]⟩]⟩ 0).2 0) :=
  ⟨by decide, val_lcv_frame ⟨[⟨0, [1, 2], none⟩, ⟨1, [1, 2], none⟩], [⟨[0, 1], [[1, 2]]⟩]⟩ 0
    (by decide)⟩

theorem findVar_assign (s : PState) (v : Nat) (d : Int) (w : Nat) :
    findVar (assign s v d) w = (findVar s w).map
      (fun pv => if pv.id = v then { pv with assigned := some d } else pv) := by
  unfold findVar assign
  simp only
  rw [List.find?_map]
  have hpred : ((fun pv : PVar => pv.id == w) ∘ fun pv =>
      if pv.id = v then { pv with assigned := some d } else pv) =
      (fun pv : PVar => pv.id == w) := by
    funext pv
    by_cases hv : pv.id = v <;> simp [hv]
  rw [hpred]

theorem findVar_isSome_of_mem_cur_domain {s : PState} {v : Nat} {d : Int}
    (hd : d ∈ cur_domain s v) : (findVar s v).isSome := by
  unfold cur_domain at hd
  cases hf : findVar s v with
  | none => rw [hf] at hd; simp at hd
  | some pv => rfl

theorem cur_domain_assign_ne (s : PState) (v : Nat) (d : Int) (w : Nat)
    (hw : w ≠ v) : cur_domain (assign s v d) w = cur_domain s w := by
  unfold cur_domain
  rw [findVar_assign]
  cases hf : findVar s w with
  | none => rfl
  | some pv =>
    have hid : pv.id = w := by simpa using List.find?_some hf
    simp only [Option.map_some']
    rw [if_neg (by rw [hid]; exact hw)]

theorem cur_domain_assign_self (s : PState) (v : Nat) (d : Int)
    (hp : (findVar s v).isSome) : cur_domain (assign s v d) v = [d] := by
  unfold cur_domain
  rw [findVar_assign]
  cases hf : findVar s v with
  | none => rw [hf] at hp; simp at hp
  | some pv =>
    have hid : pv.id = v := by simpa using List.find?_some hf
    simp [hid]

theorem varAssigned_assign_self (s : PState) (v : Nat) (d : Int)
    (hp : (findVar s v).isSome) : varAssigned (assign s v d) v = some d := by
  unfold varAssigned
  rw [findVar_assign]
  cases hf : findVar s v with
  | none => rw [hf] at hp; simp at hp
  | some pv =>
    have hid : pv.id = v := by simpa using List.find?_some hf
    simp [hid]

theorem varAssigned_assign_ne (s : PState) (v : Nat) (d : Int) (w : Nat)
    (hw : w ≠ v) : varAssigned (assign s v d) w = varAssigned s w := by
  unfold varAssigned
  rw [findVar_assign]
  cases hf : findVar s w with
  | none => rfl
  | some pv =>
    have hid : pv.id = w := by simpa using List.find?_some hf
    simp only [Option.map_some']
    rw [if_neg (by rw [hid]; exact hw)]

theorem get_unasgn_vars_assign (s : PState) (v : Nat) (d : Int) (c : RConstraint)
    (hp : (findVar s v).isSome) :
    get_unasgn_vars (assign s v d) c =
      (get_unasgn_vars s c).filter (fun w => decide (w ≠ v)) := by
  unfold get_unasgn_vars
  rw [List.filter_filter]
  refine List.filter_congr (fun w _ => ?_)
  by_cases hw : w = v
  · subst hw
    rw [varAssigned_assign_self s w d hp]
    simp
  · rw [varAssigned_assign_ne s v d w hw]
    simp [hw]

/-- Support can only shrink when the probed variable goes from unassigned to
assigned a value of its own current domain. -/
theorem has_support_assign_mono (s : PState) (v : Nat) (d : Int) (c : RConstraint)
    (w : Nat) (x : Int) (hd : d ∈ cur_domain s v)
    (hsup : has_support (assign s v d) c w x = true) :
    has_support s c w x = true := by
  have hp : (findVar s v).isSome := findVar_isSome_of_mem_cur_domain hd
  unfold has_support at hsup ⊢
  rw [List.any_eq_true] at hsup ⊢
  rcases hsup with ⟨t, ht, hall⟩
  refine ⟨t, ht, ?_⟩
  rw [List.all_eq_true] at hall ⊢
  intro wx hwx
  have hthis := hall wx hwx
  by_cases h1 : wx.1 = w
  · rw [if_pos h1] at hthis ⊢
    exact hthis
  · rw [if_neg h1] at hthis ⊢
    by_cases h2 : wx.1 = v
    · rw [h2, cur_domain_assign_self s v d hp] at hthis
      have hxd : wx.2 = d := by simpa using of_decide_eq_true hthis
      rw [h2]
      exact decide_eq_true (hxd ▸ hd)
    · rw [cur_domain_assign_ne s v d wx.1 h2] at hthis
      exact hthis

/-- The pruning count described by claim C7: the (constraint touching `v`,
other unassigned variable of that constraint, value of its current domain)
combinations that lose support when `v` is tentatively assigned `d`. -/
def lcv_lose_count (s : PState) (v : Nat) (d : Int) : Nat :=
  ((get_cons_with_var s v).map (fun c =>
    (((get_unasgn_vars s c).filter (fun w => decide (w ≠ v))).map (fun adjV =>
      ((cur_domain s adjV).filter (fun adjVal =>
        has_support s c adjV adjVal &&
          ! has_support (assign s v d) c adjV adjVal)).length)).sum)).sum

/-- The combinations already without support before the probe — independent
of the probed value. -/
def lcv_base_count (s : PState) (v : Nat) : Nat :=
  ((get_cons_with_var s v).map (fun c =>
    (((get_unasgn_vars s c).filter (fun w => decide (w ≠ v))).map (fun adjV =>
      ((cur_domain s adjV).filter (fun adjVal =>
        ! has_support s c adjV adjVal)).length)).sum)).sum

/-- The code's `numPruned` after tentatively assigning `d` splits into the
probe-independent base count plus the lose count of `d`. -/
theorem numPruned_assign_eq (s : PState) (v : Nat) (d : Int)
    (hd : d ∈ cur_domain s v) :
    numPruned (assign s v d) v = lcv_base_count s v + lcv_lose_count s v d := by
  have hp : (findVar s v).isSome := findVar_isSome_of_mem_cur_domain hd
  unfold numPruned lcv_base_count lcv_lose_count
  have hcons : get_cons_with_var (assign s v d) v = get_cons_with_var s v := rfl
  rw [hcons, ← sum_map_add]
  refine congrArg List.sum (List.map_congr_left (fun c _ => ?_))
  rw [get_unasgn_vars_assign s v d c hp, ← sum_map_add]
  refine congrArg List.sum (List.map_congr_left (fun adjV hadj => ?_))
  have hne : adjV ≠ v := by simpa using List.of_mem_filter hadj
  rw [cur_domain_assign_ne s v d adjV hne]
  exact length_filter_split (fun adjVal => has_support s c adjV adjVal)
    (fun adjVal => has_support (assign s v d) c adjV adjVal) (cur_domain s adjV)
    (fun x _ hfalse => by
      cases hq : has_support (assign s v d) c adjV x with
      | false => exact hq
      | true =>
        have hb : has_support s c adjV x = false := hfalse
        rw [has_support_assign_mono s v d c adjV x hd hq] at hb
        exact absurd hb (by simp))

/-- C7: `val_lcv` returns the variable's current domain stably sorted by
ascending pruning count — where, since the combinations already unsupported
before the probe contribute a count-shift independent of the probed value,
ordering by the code's `numPruned` coincides with ordering by the number of
combinations that genuinely lose support; values with equal counts keep
their current-domain order.  The variable-identity hypothesis says the
state is a faithful image of a Python problem (one record per object). -/
theorem val_lcv_ordering (s : PState) (v : Nat)
    (hids : (s.vars.map PVar.id).Nodup) :
    (val_lcv s v).1 =
        stableSortByKey (fun d => lcv_lose_count s v d) (cur_domain s v) ∧
    ((val_lcv s v).1.map (fun d => lcv_lose_count s v d)).Pairwise
        (fun a b => a ≤ b) ∧
    (∀ k, (val_lcv s v).1.filter (fun d => decide (lcv_lose_count s v d = k)) =
      (cur_domain s v).filter (fun d => decide (lcv_lose_count s v d = k))) := by
  have hmain : (val_lcv s v).1 =
      stableSortByKey (fun d => lcv_lose_count s v d) (cur_domain s v) := by
    cases hf : findVar s v with
    | none =>
      have hdom : cur_domain s v = [] := by unfold cur_domain; rw [hf]
      unfold val_lcv
      rw [hdom]
      rfl
    | some pv =>
      cases hass : pv.assigned with
      | some a =>
        have hdom : cur_domain s v = [a] := by
          unfold cur_domain
          rw [hf]
          simp [hass]
        unfold val_lcv
        rw [hdom]
        rfl
      | none =>
        have hun : varUnassigned s v := by
          intro pv2 hpv2 hid2
          have hpv : pv ∈ s.vars := List.mem_of_find?_eq_some hf
          have hpid : pv.id = v := by simpa using List.find?_some hf
          have heq : pv2 = pv :=
            List.inj_on_of_nodup_map hids hpv2 hpv (by rw [hid2, hpid])
          rw [heq, hass]
        have hloop := lcv_loop_spec s v hun (cur_domain s v) []
        have hfst : (val_lcv s v).1 = (stableSortByKey Prod.snd
            ((cur_domain s v).map
              (fun d => (d, numPruned (assign s v d) v)))).map Prod.fst := by
          unfold val_lcv
          rw [hloop]
          simp
        rw [hfst,
          stableSortByKey_map (fun d => numPruned (assign s v d) v) Prod.snd
            (fun d => (d, numPruned (assign s v d) v)) (fun a => rfl)
            (cur_domain s v),
          List.map_map,
          show (Prod.fst ∘ fun d => (d, numPruned (assign s v d) v)) = id from rfl,
          List.map_id]
        exact stableSortByKey_congr_key _ _ _ (fun a ha b hb => by
          rw [numPruned_assign_eq s v a ha, numPruned_assign_eq s v b hb]
          omega)
  refine ⟨hmain, ?_, fun k => ?_⟩
  · rw [hmain]
    exact List.pairwise_map.mpr
      (stableSortByKey_sorted (fun d => lcv_lose_count s v d) (cur_domain s v))
  · rw [hmain]
    exact stableSortByKey_filter_key _ _ k

theorem val_lcv_ordering_witness :
    ((⟨[⟨0, [1, 2], none⟩, ⟨1, [1, 2], none⟩], [⟨[0, 1], [[1, 2]]⟩]⟩ :
        PState).vars.map PVar.id).Nodup ∧
      ((val_lcv ⟨[⟨0, [1, 2], none⟩, ⟨1, [1, 2], none⟩], [⟨[0, 1], [[1, 2]]⟩]⟩ 0).1 =
          stableSortByKey
            (fun d => lcv_lose_count
              ⟨[⟨0, [1, 2], none⟩, ⟨1, [1, 2], none⟩], [⟨[0, 1], [[1, 2]]⟩]⟩ 0 d)
            (cur_domain ⟨[⟨0, [1, 2], none⟩, ⟨1, [1, 2], none⟩], [⟨[0, 1], [[1, 2]]⟩]⟩ 0) ∧
        ((val_lcv ⟨[⟨0, [1, 2], none⟩, ⟨1, [1, 2], none⟩], [⟨[0, 1], [[1, 2]]⟩]⟩ 0).1.map
            (fun d => lcv_lose_count
              ⟨[⟨0, [1, 2], none⟩, ⟨1, [1, 2], none⟩], [⟨[0, 1], [[1, 2]]⟩]⟩ 0 d)).Pairwise
          (fun a b => a ≤ b) ∧
        (∀ k, (val_lcv ⟨[⟨0, [1, 2], none⟩, ⟨1, [1, 2], none⟩],
              [⟨[0, 1], [[1, 2]]⟩]⟩ 0).1.filter
            (fun d => decide (lcv_lose_count
              ⟨[⟨0, [1, 2], none⟩, ⟨1, [1, 2], none⟩], [⟨[0, 1], [[1, 2]]⟩]⟩ 0 d = k)) =
          (cur_domain ⟨[⟨0, [1, 2], none⟩, ⟨1, [1, 2], none⟩],
              [⟨[0, 1], [[1, 2]]⟩]⟩ 0).filter
            (fun d => decide (lcv_lose_count
              ⟨[⟨0, [1, 2], none⟩, ⟨1, [1, 2], none⟩],
                [⟨[0, 1], [[1, 2]]⟩]⟩ 0 d = k)))) :=
  ⟨by decide, val_lcv_ordering
    ⟨[⟨0, [1, 2], none⟩, ⟨1, [1, 2], none⟩], [⟨[0, 1], [[1, 2]]⟩]⟩ 0 (by decide)⟩
